import Mathlib

/-!
Verification development for the `twoblock` preprocessing utilities
(`_preproc_utilities.py`): robust column-wise location and scale
estimators (median, mean, L1-median wrapper, K-step LTS, scaleTau2) and
the `scale_data` standardizer.

Modelling conventions:
* A floating-point value is modelled as `Option ℚ`: `some q` is a finite
  float, `none` models a non-finite value (NaN; division by zero, which
  numpy turns into a non-finite value with a warning, is also mapped to
  `none`).  All exact float arithmetic on finite values is exact rational
  arithmetic here.
* A numpy 1-D array is a `List F`, a 2-D array a `List (List F)` (row
  major).  The distinction between 1-D and 2-D inputs, which matters for
  shape unpacking in the Python source, is the inductive `NpArr`.
* `scipy.optimize.minimize` is an external black box; it enters the
  development as an explicit `Solver` parameter mapping the data matrix
  and the starting point to the returned point `.x`.  Similarly
  `scipy.stats.norm.cdf/pdf/ppf` and `numpy.sqrt` are abstract functions
  `ℚ → ℚ` passed as parameters.
* Python exceptions are modelled with `Except PyErr`.
-/

namespace Twoblock

/-- A float: `some q` is finite, `none` is NaN (or another non-finite). -/
abbrev F := Option ℚ

/-- A 1-D numpy array (or one row / column of a 2-D array). -/
abbrev Vec := List F

/-- A 2-D numpy array, row major. -/
abbrev Mat := List Vec

/-- A numpy array that is either 1-D or 2-D (shape rank matters in the source). -/
inductive NpArr where
  | vec (v : Vec)
  | mat (M : Mat)
deriving DecidableEq

/-- Errors raised by the Python source. -/
inductive PyErr where
  | valueError
  | unboundLocal
deriving DecidableEq

/-- IEEE addition: NaN propagates. -/
def addF : F → F → F
  | some a, some b => some (a + b)
  | _, _ => none

/-- IEEE subtraction: NaN propagates. -/
def subF : F → F → F
  | some a, some b => some (a - b)
  | _, _ => none

/-- IEEE multiplication: NaN propagates. -/
def mulF : F → F → F
  | some a, some b => some (a * b)
  | _, _ => none

/-- IEEE division: NaN propagates; division by zero gives a non-finite value. -/
def divF : F → F → F
  | some a, some b => if b = 0 then none else some (a / b)
  | _, _ => none

/-- Absolute value; NaN propagates. -/
def absF : F → F := Option.map (fun q => |q|)

/-- Negation; NaN propagates. -/
def negF : F → F := Option.map (fun q => -q)

/-- Squaring; NaN propagates. -/
def sqF (x : F) : F := mulF x x

/-- Add a finite rational to a float (used for translating data by a real vector). -/
def addQF (x : F) (q : ℚ) : F := x.map (fun a => a + q)

/-- IEEE `<=` as a Bool: any comparison with NaN is false. -/
def leF : F → F → Bool
  | some a, some b => decide (a ≤ b)
  | _, _ => false

/-- IEEE `>` as a Bool: any comparison with NaN is false. -/
def gtF : F → F → Bool
  | some a, some b => decide (b < a)
  | _, _ => false

/-- IEEE `<` as a Bool: any comparison with NaN is false. -/
def ltF : F → F → Bool
  | some a, some b => decide (a < b)
  | _, _ => false

/-- `np.isnan(v).any()` for a 1-D array. -/
def hasNaNv (v : Vec) : Bool := v.any Option.isNone

/-- `np.isnan(M).any()` for a 2-D array. -/
def hasNaN (M : Mat) : Bool := M.any hasNaNv

/-- `np.sum` of a 1-D array: NaN propagates. -/
def sumF (l : List F) : F := l.foldr addF (some 0)

/-- `np.nansum` of a 1-D array: NaN entries are skipped (all-NaN sums to 0). -/
def nansumQ (l : List F) : ℚ := (l.filterMap id).sum

/-- All entries of a 2-D array, row major (used for axis-free numpy sums). -/
def flat (M : Mat) : List F := M.foldr (fun r acc => r ++ acc) []

/-- Sorting order used by `np.sort`: ascending with NaN sorted last. -/
def leSortF : F → F → Bool
  | _, none => true
  | none, some _ => false
  | some a, some b => decide (a ≤ b)

/-- Insert into a sorted list (ascending, NaN last). -/
def insertF (x : F) : List F → List F
  | [] => [x]
  | y :: ys => if leSortF x y then x :: y :: ys else y :: insertF x ys

/-- `np.sort` for a 1-D array (ascending, NaN last). -/
def sortF : List F → List F
  | [] => []
  | x :: xs => insertF x (sortF xs)

/-- Insert into a sorted list of rationals (ascending). -/
def insertQ (x : ℚ) : List ℚ → List ℚ
  | [] => [x]
  | y :: ys => if x ≤ y then x :: y :: ys else y :: insertQ x ys

/-- Sort a list of rationals ascending. -/
def sortQ : List ℚ → List ℚ
  | [] => []
  | x :: xs => insertQ x (sortQ xs)

/-- Median of a list of rationals, numpy style: the middle order statistic
for odd length, the average of the two middle ones for even length; the
empty list gives NaN (numpy warns and returns NaN). -/
def medianOfQ (l : List ℚ) : F :=
  let s := sortQ l
  let n := l.length
  if n = 0 then none
  else if n % 2 = 1 then some (s.getD (n / 2) 0)
  else some ((s.getD (n / 2 - 1) 0 + s.getD (n / 2) 0) / 2)

/-- Column `j` of a 2-D array (out-of-range entries are never accessed on
rectangular data; they default to NaN). -/
def colOf (M : Mat) (j : ℕ) : List F := M.map (fun r => (r.get? j).getD none)

/-- `np.median` of one column: NaN if the column contains NaN (numpy
returns NaN as soon as the largest partitioned element is NaN). -/
def plainMedianCol (c : List F) : F :=
  if hasNaNv c then none else medianOfQ (c.filterMap id)

/-- `np.nanmedian` of one column: NaN entries are ignored. -/
def nanMedianCol (c : List F) : F := medianOfQ (c.filterMap id)

/-- Number of columns of a 2-D array (numpy `shape[1]` of a rectangular array). -/
def ncols (M : Mat) : ℕ := (M.head?.map List.length).getD 0

/-- `median` from the source: NaN-aware column-wise median, reshaped to a
length-p vector (a 1-D input gives a length-1 output). -/
def median (X : NpArr) : Vec :=
  match X with
  | .vec v => [if hasNaNv v then nanMedianCol v else plainMedianCol v]
  | .mat M =>
    if hasNaN M then (List.range (ncols M)).map (fun j => nanMedianCol (colOf M j))
    else (List.range (ncols M)).map (fun j => plainMedianCol (colOf M j))

/-- `np.mean` of one column: NaN propagates; the empty column gives NaN. -/
def plainMeanCol (c : List F) : F :=
  if c.isEmpty then none else (sumF c).map (fun q => q / (c.length : ℚ))

/-- `np.nanmean` of one column: NaN entries are ignored; all-NaN gives NaN. -/
def nanMeanCol (c : List F) : F :=
  let v := c.filterMap id
  if v.isEmpty then none else some (v.sum / (v.length : ℚ))

/-- `mean` from the source at the default `trimming = 0`, applied
column-wise to a 2-D array with `p` columns (the caller's
`reshape((p,))` fixes the output length even for an empty row set). -/
def meanCols (p : ℕ) (M : Mat) : Vec :=
  if hasNaN M then (List.range p).map (fun j => nanMeanCol (colOf M j))
  else (List.range p).map (fun j => plainMeanCol (colOf M j))

/-! ## L1-median wrapper -/

/-- The external `scipy.optimize.minimize` call of `_l1median`: an abstract
solver mapping the data matrix and the starting point to the returned
point `.x`.  Everything proved about `l1median`/`kstepLTS` holds for an
arbitrary solver. -/
abbrev Solver := Mat → Vec → Vec

/-- `p` as computed by `l1median`: `X.shape[1]` for a 2-D array, else 1. -/
def pcolsArr : NpArr → ℕ
  | .vec _ => 1
  | .mat M => ncols M

/-- View an `NpArr` as a 2-D array (only reached by `l1median` when `p ≥ 2`,
hence on 2-D input). -/
def asMat : NpArr → Mat
  | .vec v => [v]
  | .mat M => M

/-- `l1median` from the source.  `x0kw` models the optional `x0` keyword
argument.  The local variable `x0` is only assigned when the keyword is
absent (`if "x0" not in kwargs: x0 = median(X)`), so when the keyword is
supplied and the optimizer branch is reached, referencing the unassigned
local raises `UnboundLocalError`. -/
def l1median (solver : Solver) (x0kw : Option Vec) (X : NpArr) : Except PyErr Vec :=
  let x0loc : Option Vec := match x0kw with
    | none => some (median X)
    | some _ => none
  if pcolsArr X < 2 then .ok (median X)
  else
    match x0loc with
    | some x0 => .ok (solver (asMat X) x0)
    | none => .error .unboundLocal

/-! ## K-step LTS estimator -/

/-- One row's vector of squared deviations from the current estimate `m1`
(`np.square(X - m1)` for that row). -/
def sqRow (m1 r : Vec) : List F := (List.zipWith subF r m1).map sqF

/-- The per-row squared distances to `m1`: `np.nansum(np.square(X - m1), axis=1)`
when `X` contains NaN, else `np.sum(np.square(X - m1), axis=1)`. -/
def distsOf (X : Mat) (m1 : Vec) : List F :=
  if hasNaN X then X.map (fun r => some (nansumQ (sqRow m1 r)))
  else X.map (fun r => sumF (sqRow m1 r))

/-- The cut distance: `np.sort(dists)[int(np.floor((n + 1) / 2)) - 1]`. -/
def cutdistOf (n : ℕ) (dists : List F) : F :=
  (sortF dists).getD ((n + 1) / 2 - 1) none

/-- `X[hsubset, :]` for `hsubset = np.where(dists <= cutdist)[0]`: the rows
whose distance compares `<=` to the cut (IEEE comparison, so NaN never
qualifies). -/
def selectRows (X : Mat) (dists : List F) (cut : F) : Mat :=
  (X.zip dists).filterMap (fun rd => if leF rd.2 cut then some rd.1 else none)

/-- Python's builtin `max` over a 1-D array: a left fold that replaces the
current value whenever the next element compares `>` (IEEE semantics). -/
def pymax : List F → F
  | [] => none
  | x :: xs => xs.foldl (fun cur y => if gtF y cur then y else cur) x

/-- `max(abs(m1 - m2))` from the source. -/
def maxAbsDiff (m1 m2 : Vec) : F := pymax ((List.zipWith subF m1 m2).map absF)

/-- One refinement step of `kstepLTS`: distances, cut distance, h-subset,
column mean of the h-subset rows (reshaped to length `p`). -/
def ltsStep (X : Mat) (p n : ℕ) (m1 : Vec) : Vec :=
  let dists := distsOf X m1
  let cut := cutdistOf n dists
  meanCols p (selectRows X dists cut)

/-- The `while unconverged and (iteration < maxit)` loop of `kstepLTS`,
with the remaining iteration budget as fuel.  The state is the current
estimate (at loop entry `m1 = m2`); the loop body recurses on the new
`m2` exactly when `max(abs(m1 - m2)) > tol`, and the latest `m2` is
returned in every exit path. -/
def ltsGo (X : Mat) (p n : ℕ) (tol : ℚ) : ℕ → Vec → Vec
  | 0, m1 => m1
  | Nat.succ k, m1 =>
    let m2 := ltsStep X p n m1
    if gtF (maxAbsDiff m1 m2) (some tol) then ltsGo X p n tol k m2 else m2

/-- The seed of `kstepLTS`: `m1 = l1median(X)` (this call supplies no `x0`
keyword and therefore cannot raise). -/
def kstepSeed (solver : Solver) (X : Mat) : Vec :=
  match l1median solver none (.mat X) with
  | .ok v => v
  | .error _ => []

/-- `kstepLTS` from the source. -/
def kstepLTS (solver : Solver) (X : Mat) (maxit : ℕ) (tol : ℚ) : Vec :=
  ltsGo X (ncols X) X.length tol maxit (kstepSeed solver X)

/-- The algorithm exactly as the claim states it, with a strict
convergence test: the loop stops as soon as the maximum absolute
coordinate-wise change is strictly below `tol`. -/
def ltsGoClaim (X : Mat) (p n : ℕ) (tol : ℚ) : ℕ → Vec → Vec
  | 0, m1 => m1
  | Nat.succ k, m1 =>
    let m2 := ltsStep X p n m1
    if ltF (maxAbsDiff m1 m2) (some tol) then m2 else ltsGoClaim X p n tol k m2

/-- `kstepLTS` as described by the claim (strict "below tol" stopping rule). -/
def kstepLTSClaim (solver : Solver) (X : Mat) (maxit : ℕ) (tol : ℚ) : Vec :=
  ltsGoClaim X (ncols X) X.length tol maxit (kstepSeed solver X)

/-- The loop as the amended claim describes it: seed with `l1median(X)`,
iterate at most `maxit` times, and stop as soon as the maximum absolute
coordinate-wise change between `m1` and `m2` no longer exceeds `tol`,
returning the latest `m2` in either exit path. -/
def ltsGoSpec (X : Mat) (p n : ℕ) (tol : ℚ) : ℕ → Vec → Vec
  | 0, m1 => m1
  | Nat.succ k, m1 =>
    let m2 := ltsStep X p n m1
    if gtF (maxAbsDiff m1 m2) (some tol) = false then m2 else ltsGoSpec X p n tol k m2

/-- `kstepLTS` as described by the amended claim. -/
def kstepLTSSpec (solver : Solver) (X : Mat) (maxit : ℕ) (tol : ℚ) : Vec :=
  ltsGoSpec X (ncols X) X.length tol maxit (kstepSeed solver X)

/-! ## scaleTau2 -/

/-- The `consistency` argument of `scaleTau2`: `False`, `True`, or the
string `"finiteSample"` (truthy). -/
inductive Consistency where
  | consFalse
  | consTrue
  | consFinite
deriving DecidableEq

/-- `Erho` from the source, over abstract normal cdf/pdf. -/
def Erho (cdf pdf : ℚ → ℚ) (b : ℚ) : ℚ :=
  2 * ((1 - b ^ 2) * cdf b - b * pdf b + b ^ 2) - 1

/-- `Es2` from the source, over abstract normal cdf/pdf/ppf. -/
def Es2 (cdf pdf ppf : ℚ → ℚ) (c2 : ℚ) : ℚ := Erho cdf pdf (c2 * ppf (3 / 4))

/-- The Winsorization step `rho[np.where(rho > c2**2)[0]] = c2**2` of the
source: `np.where` on a 2-D boolean array returns `(rows, cols)` and the
`[0]` keeps only the row indices, so every entry of each row containing
some entry above the cap is overwritten by the cap. -/
def capRho (c2sq : ℚ) (rho : Mat) : Mat :=
  rho.map (fun row =>
    if row.any (fun e => gtF e (some c2sq)) then row.map (fun _ => some c2sq) else row)

/-- Modelled from the spec: the claim's elementwise Winsorization — each
squared entry exceeding `c2²` is replaced by `c2²` and every other entry
is left unchanged. -/
def capRhoElementwise (c2sq : ℚ) (rho : Mat) : Mat :=
  rho.map (fun row => row.map (fun e => if gtF e (some c2sq) then some c2sq else e))

/-- `scaleTau2` from the source.  `sqrtF`, `cdf`, `pdf`, `ppf` model
`np.sqrt` and `scipy.stats.norm.cdf/pdf/ppf`.  A 1-D input fails at the
shape unpacking `n, p = x.shape` with a `ValueError`.  The sums `summ`
(chosen once, `np.nansum` when the input has NaN, else `np.sum`) carry no
`axis` argument in the source, so they are grand sums over all entries. -/
def scaleTau2 (sqrtF cdf pdf ppf : ℚ → ℚ) (x0 : NpArr) (c1 c2 : ℚ)
    (cons : Consistency) : Except PyErr Vec :=
  match x0 with
  | .vec _ => .error .valueError
  | .mat M =>
    let n := M.length
    let nan := hasNaN M
    let sumG : Mat → F := fun A => if nan then some (nansumQ (flat A)) else sumF (flat A)
    let medx := median (.mat M)
    let xc := M.map (fun r => List.zipWith (fun a m => absF (subF a m)) r medx)
    let sigma0 := median (.mat xc)
    let xCent : Mat :=
      if 0 < c1 then
        let xcs := xc.map (fun r =>
          List.zipWith (fun a s => divF a (mulF s (some c1))) r sigma0)
        let w := xcs.map (fun r => r.map (fun u =>
          sqF (divF (addF (absF (subF (some 1) (sqF u))) (subF (some 1) (sqF u))) (some 2))))
        let mu := divF (sumG (List.zipWith (fun rx rw => List.zipWith mulF rx rw) M w)) (sumG w)
        M.map (fun r => r.map (fun a => subF a mu))
      else
        M.map (fun r => List.zipWith subF r medx)
    let x2 := xCent.map (fun r => List.zipWith divF r sigma0)
    let rho := x2.map (fun r => r.map sqF)
    let rhoC := capRho (c2 ^ 2) rho
    let nEs2 : ℚ :=
      match cons with
      | .consFalse => (n : ℚ)
      | .consTrue => (n : ℚ) * Es2 cdf pdf ppf c2
      | .consFinite => ((n : ℚ) - 2) * Es2 cdf pdf ppf c2
    .ok (sigma0.map (fun s => mulF s (Option.map sqrtF (divF (sumG rhoC) (some nEs2)))))

/-! ## scale_data and the zero-scale guard -/

/-- `_handle_zeros_in_scale` from the source: every entry equal to 0.0 is
replaced by 1.0 (the comparison `scale == 0.0` is false for NaN). -/
def handleZerosInScale (s : Vec) : Vec :=
  s.map (fun e => if e = some 0 then some 1 else e)

/-- The body of `scale_data` after the scale vector has been guarded:
`(X - m) / s'` with the location and the guarded scale broadcast over the
rows; the `p == 1` branch subtracts and divides by the scalars `float(m)`
and `s'[0]`. -/
def scaleDataRaw (X : NpArr) (m sg : Vec) : NpArr :=
  match X with
  | .vec v => .vec (v.map (fun a => divF (subF a (m.getD 0 none)) (sg.getD 0 none)))
  | .mat M =>
    if ncols M = 1 then
      .mat (M.map (fun r => r.map (fun a => divF (subF a (m.getD 0 none)) (sg.getD 0 none))))
    else
      .mat (M.map (fun r => List.zipWith divF (List.zipWith subF r m) sg))

/-- `scale_data` from the source: guard the scale with
`_handle_zeros_in_scale`, then standardize. -/
def scale_data (X : NpArr) (m s : Vec) : NpArr :=
  scaleDataRaw X m (handleZerosInScale s)

/-- Modelled from the spec: the inverse transform `X_hat = Xs * s + m`
(the round-trip direction of the `scale_data` contract). -/
def unscale (X : NpArr) (s m : Vec) : NpArr :=
  match X with
  | .vec v => .vec (v.map (fun a => addF (mulF a (s.getD 0 none)) (m.getD 0 none)))
  | .mat M => .mat (M.map (fun r => List.zipWith addF (List.zipWith mulF r s) m))

/-! ## L1-median objective machinery -/

/-- `_euclidnorm` from the source: `np.sqrt` of the (NaN-aware) sum of
squares of a vector. -/
def euclidnorm (sqrtF : ℚ → ℚ) (x : Vec) : F :=
  if hasNaNv x then some (sqrtF (nansumQ (x.map sqF)))
  else Option.map sqrtF (sumF (x.map sqF))

/-- `_diffmat_objective` from the source: `X - np.tile(a, (n, 1))`. -/
def diffmatObjective (a : Vec) (X : Mat) : Mat :=
  X.map (fun r => List.zipWith subF r a)

/-- The per-row Euclidean distances computed inside `_l1m_jacobian`
(before the zero guard). -/
def l1mDists (sqrtF : ℚ → ℚ) (a : Vec) (X : Mat) : List F :=
  (diffmatObjective a X).map (euclidnorm sqrtF)

/-- Column sums (`np.sum(-, axis=0)` / `np.nansum(-, axis=0)` according to
the NaN flag of `X`). -/
def colSums (nan : Bool) (p : ℕ) (M : Mat) : Vec :=
  if nan then (List.range p).map (fun j => some (nansumQ (colOf M j)))
  else (List.range p).map (fun j => sumF (colOf M j))

/-- The body of `_l1m_jacobian` once the (guarded) per-row distances are
given: divide each row of `dX` by its distance, then return the negated
(NaN-aware) column sums. -/
def l1mJacobianWith (a : Vec) (X : Mat) (dists : List F) : Vec :=
  let dX := diffmatObjective a X
  let dXn := List.zipWith (fun r d => r.map (fun e => divF e d)) dX dists
  (colSums (hasNaN X) (ncols X) dXn).map negF

/-- `_l1m_jacobian` from the source: the per-row distances are passed
through `_handle_zeros_in_scale` before being used as divisors. -/
def l1mJacobian (sqrtF : ℚ → ℚ) (a : Vec) (X : Mat) : Vec :=
  l1mJacobianWith a X (handleZerosInScale (l1mDists sqrtF a X))

/-! ## Trimming validation -/

/-- `_check_trimming` from the source: raises `ValueError` iff
`t > 0.99 or t < 0`. -/
def checkTrimming (t : ℚ) : Except PyErr Unit :=
  if 99 / 100 < t ∨ t < 0 then .error .valueError else .ok ()

/-- The 5×1 matrix of the C1 counterexample: column (−4, −4, 0, 4, 100). -/
def cexMat1 : Mat := [[some (-4)], [some (-4)], [some 0], [some 4], [some 100]]

/-- Modelled from the spec: translate a length-p vector by the constant
real vector `v` (the claim's `m + v`). -/
def vecShift (m : Vec) (v : List ℚ) : Vec := List.zipWith addQF m v

/-- Modelled from the spec: translate every row of a matrix by the
constant real vector `v` (the claim's `X + v`). -/
def matShift (X : Mat) (v : List ℚ) : Mat := X.map (fun r => vecShift r v)

/-! ## Theorems -/

/-- Unfolding of one `kstepLTS` loop iteration. -/
theorem ltsGo_succ (X : Mat) (p n : ℕ) (tol : ℚ) (k : ℕ) (m1 : Vec) :
    ltsGo X p n tol (k+1) m1 =
      if gtF (maxAbsDiff m1 (ltsStep X p n m1)) (some tol) then
        ltsGo X p n tol k (ltsStep X p n m1)
      else ltsStep X p n m1 := rfl

/-- Unfolding of one iteration of the claim's strict-stopping loop. -/
theorem ltsGoClaim_succ (X : Mat) (p n : ℕ) (tol : ℚ) (k : ℕ) (m1 : Vec) :
    ltsGoClaim X p n tol (k+1) m1 =
      if ltF (maxAbsDiff m1 (ltsStep X p n m1)) (some tol) then ltsStep X p n m1
      else ltsGoClaim X p n tol k (ltsStep X p n m1) := rfl

/-- The code loop and the amended-claim loop agree: both recurse exactly
when the maximum absolute change exceeds `tol`. -/
theorem ltsGo_eq_ltsGoSpec (X : Mat) (p n : ℕ) (tol : ℚ) :
    ∀ (k : ℕ) (m1 : Vec), ltsGo X p n tol k m1 = ltsGoSpec X p n tol k m1
  | 0, _ => rfl
  | Nat.succ k, m1 => by
    unfold ltsGo ltsGoSpec
    by_cases h : gtF (maxAbsDiff m1 (ltsStep X p n m1)) (some tol) = true <;>
      simp [h, ltsGo_eq_ltsGoSpec X p n tol k]

set_option maxHeartbeats 1000000 in
/-- C1 (counterexample): on the 5×1 matrix with the single column
(−4, −4, 0, 4, 100), `maxit = 5` and `tol = 1`, the first refinement step
moves the estimate from 0 to −1, a change exactly equal to `tol`; the
code stops (change not `>` tol) and returns [−1], while the claim's
strict "below tol" rule would keep iterating and return [−8/3]. -/
theorem kstepLTS_strict_tol_counterexample :
    kstepLTS (fun _ _ => []) cexMat1 5 1 = [some (-1)]
    ∧ kstepLTSClaim (fun _ _ => []) cexMat1 5 1 = [some (-8/3)]
    ∧ kstepLTS (fun _ _ => []) cexMat1 5 1 ≠ kstepLTSClaim (fun _ _ => []) cexMat1 5 1 := by
  have hseed : kstepSeed (fun _ _ => []) cexMat1 = [some 0] := by
    norm_num [cexMat1, kstepSeed, l1median, median, pcolsArr, ncols, hasNaN, hasNaNv,
      plainMedianCol, medianOfQ, sortQ, insertQ, colOf, show List.range 1 = [0] from rfl,
      List.filterMap_cons, List.filterMap_nil, List.map, Option.isNone, List.any]
  have e1 : ltsStep cexMat1 1 5 [some 0] = [some (-1)] := by
    norm_num [cexMat1, ltsStep, distsOf, hasNaN, hasNaNv, sqRow, subF, sqF, mulF, sumF, addF,
      cutdistOf, sortF, insertF, leSortF, selectRows, leF, meanCols, plainMeanCol, nanMeanCol,
      colOf, ncols, show List.range 1 = [0] from rfl, List.filterMap_cons, List.filterMap_nil,
      List.zipWith, List.foldr, Option.isNone, Option.getD, List.any, List.map, List.zip]
  have e2 : ltsStep cexMat1 1 5 [some (-1)] = [some (-8/3)] := by
    norm_num [cexMat1, ltsStep, distsOf, hasNaN, hasNaNv, sqRow, subF, sqF, mulF, sumF, addF,
      cutdistOf, sortF, insertF, leSortF, selectRows, leF, meanCols, plainMeanCol, nanMeanCol,
      colOf, ncols, show List.range 1 = [0] from rfl, List.filterMap_cons, List.filterMap_nil,
      List.zipWith, List.foldr, Option.isNone, Option.getD, List.any, List.map, List.zip]
  have e3 : ltsStep cexMat1 1 5 [some (-8/3)] = [some (-8/3)] := by
    norm_num [cexMat1, ltsStep, distsOf, hasNaN, hasNaNv, sqRow, subF, sqF, mulF, sumF, addF,
      cutdistOf, sortF, insertF, leSortF, selectRows, leF, meanCols, plainMeanCol, nanMeanCol,
      colOf, ncols, show List.range 1 = [0] from rfl, List.filterMap_cons, List.filterMap_nil,
      List.zipWith, List.foldr, Option.isNone, Option.getD, List.any, List.map, List.zip]
  have hcode : kstepLTS (fun _ _ => []) cexMat1 5 1 = [some (-1)] := by
    show ltsGo cexMat1 1 5 1 5 (kstepSeed (fun _ _ => []) cexMat1) = [some (-1)]
    rw [hseed, ltsGo_succ, e1]
    norm_num [maxAbsDiff, pymax, subF, absF, gtF]
  have hclaim : kstepLTSClaim (fun _ _ => []) cexMat1 5 1 = [some (-8/3)] := by
    show ltsGoClaim cexMat1 1 5 1 5 (kstepSeed (fun _ _ => []) cexMat1) = [some (-8/3)]
    rw [hseed, ltsGoClaim_succ, e1]
    rw [show ltF (maxAbsDiff [some 0] [some (-1)]) (some 1) = false by
      norm_num [maxAbsDiff, pymax, subF, absF, ltF, abs_of_pos]]
    rw [if_neg (by simp), ltsGoClaim_succ, e2]
    rw [show ltF (maxAbsDiff [some (-1)] [some (-8/3)]) (some 1) = false by
      norm_num [maxAbsDiff, pymax, subF, absF, ltF, abs_of_pos]]
    rw [if_neg (by simp), ltsGoClaim_succ, e3]
    rw [show ltF (maxAbsDiff [some (-8/3)] [some (-8/3)]) (some 1) = true by
      norm_num [maxAbsDiff, pymax, subF, absF, ltF, abs_of_pos]]
    simp
  refine ⟨hcode, hclaim, ?_⟩
  rw [hcode, hclaim]
  norm_num

/-- C1 (amended): `kstepLTS` seeds with `l1median(X)`, runs at most
`maxit` refinement steps (NaN-aware squared distances, cut distance at
1-indexed rank ⌊(n+1)/2⌋ of the sorted distances, inclusive h-subset,
column mean of the h-subset), stops as soon as the maximum absolute
coordinate-wise change between `m1` and `m2` no longer exceeds `tol`,
and returns the latest `m2` whether it converged or exhausted the cap. -/
theorem kstepLTS_eq_amended_spec (solver : Solver) (X : Mat) (maxit : ℕ) (tol : ℚ) :
    kstepLTS solver X maxit tol = kstepLTSSpec solver X maxit tol :=
  ltsGo_eq_ltsGoSpec X (ncols X) X.length tol maxit (kstepSeed solver X)

/-- C2: `scaleTau2` normalizes the *grand* sum of the capped squares (its
`summ` calls carry no `axis`), not the per-column sums.  On the 3×2
matrix with columns (0,1,2) and (0,10,20), `c1 = 0`, `c2 = 3`,
`consistency = False`, both per-column capped-square sums are 2, yet both
output entries carry the factor `sqrt(4/3)` built from the grand sum 4
divided by `n = 3`, instead of per-column `sqrt(2/3)`. -/
theorem scaleTau2_sums_over_all_entries (sq cdf pdf ppf : ℚ → ℚ) :
    scaleTau2 sq cdf pdf ppf
        (.mat [[some 0, some 0], [some 1, some 10], [some 2, some 20]]) 0 3 .consFalse
      = .ok [some (sq (4/3)), some (10 * sq (4/3))] := by
  norm_num [scaleTau2, median, hasNaN, hasNaNv, plainMedianCol, nanMedianCol, medianOfQ,
    sortQ, insertQ, colOf, ncols, capRho, Erho, Es2, flat, sumF, nansumQ, addF, subF, mulF,
    divF, absF, sqF, gtF, leF, show List.range 2 = [0, 1] from rfl,
    List.filterMap_cons, List.filterMap_nil, List.map, List.zipWith, List.foldr,
    Option.isNone, Option.getD, List.any]

/-- C3: the Winsorization `rho[np.where(rho > c2**2)[0]] = c2**2` caps
whole rows, not single entries: on the capped matrix below (arising from
the 3×2 input (0,1,2 | 0,10,40) with `c1 = 0`, `c2 = 2`) the entry 1 of
the last row, although below the cap 4, is overwritten by 4 as well, so
the code's result differs from elementwise Winsorization and the final
output carries the inflated grand sum 10 (elementwise capping gives 7). -/
theorem scaleTau2_winsorizes_whole_rows :
    capRho 4 [[some 1, some 1], [some 0, some 0], [some 1, some 9]]
        = [[some 1, some 1], [some 0, some 0], [some 4, some 4]]
    ∧ capRhoElementwise 4 [[some 1, some 1], [some 0, some 0], [some 1, some 9]]
        = [[some 1, some 1], [some 0, some 0], [some 1, some 4]]
    ∧ capRho 4 [[some 1, some 1], [some 0, some 0], [some 1, some 9]]
        ≠ capRhoElementwise 4 [[some 1, some 1], [some 0, some 0], [some 1, some 9]]
    ∧ (∀ sq cdf pdf ppf : ℚ → ℚ,
        scaleTau2 sq cdf pdf ppf
            (.mat [[some 0, some 0], [some 1, some 10], [some 2, some 40]]) 0 2 .consFalse
          = .ok [some (sq (10/3)), some (10 * sq (10/3))]) := by
  refine ⟨by decide, by decide, by decide, fun sq cdf pdf ppf => ?_⟩
  norm_num [scaleTau2, median, hasNaN, hasNaNv, plainMedianCol, nanMedianCol, medianOfQ,
    sortQ, insertQ, colOf, ncols, capRho, Erho, Es2, flat, sumF, nansumQ, addF, subF, mulF,
    divF, absF, sqF, gtF, leF, show List.range 2 = [0, 1] from rfl,
    List.filterMap_cons, List.filterMap_nil, List.map, List.zipWith, List.foldr,
    Option.isNone, Option.getD, List.any]

/-- C4: on input with fewer than two columns (a 1-D vector or an n×1
matrix), `l1median` returns exactly the column median, for any solver and
whether or not a starting point was supplied — the optimizer branch is
never reached. -/
theorem l1median_low_dim_eq_median (solver : Solver) (x0kw : Option Vec) (X : NpArr)
    (h : pcolsArr X < 2) : l1median solver x0kw X = .ok (median X) := by
  unfold l1median
  simp [h]

theorem l1median_low_dim_eq_median_witness :
    pcolsArr (.vec [some 1, some 2, some 3]) < 2
    ∧ l1median (fun _ _ => []) none (.vec [some 1, some 2, some 3])
        = .ok (median (.vec [some 1, some 2, some 3])) :=
  ⟨by decide, l1median_low_dim_eq_median (fun _ _ => []) none _ (by decide)⟩

/-- C5: both divisor sites are guarded: `_handle_zeros_in_scale` remaps a
zero entry to 1.0 and leaves every other entry (including NaN) unchanged,
its output never contains a zero, `scale_data` divides by the guarded
scale vector, and `_l1m_jacobian` divides by the guarded per-row
distances — so neither a constant column nor a candidate point sitting on
a data row produces a zero divisor. -/
theorem zero_divisor_guards (s : Vec) (i : ℕ) (X : NpArr) (m : Vec)
    (sq : ℚ → ℚ) (a : Vec) (Y : Mat) :
    ((handleZerosInScale s).get? i
        = (s.get? i).map (fun e => if e = some 0 then some 1 else e))
    ∧ (∀ e ∈ handleZerosInScale s, e ≠ some 0)
    ∧ scale_data X m s = scaleDataRaw X m (handleZerosInScale s)
    ∧ l1mJacobian sq a Y = l1mJacobianWith a Y (handleZerosInScale (l1mDists sq a Y)) := by
  refine ⟨by simp [handleZerosInScale, List.get?_map], ?_, rfl, rfl⟩
  intro e he
  rcases List.mem_map.mp he with ⟨x, _, rfl⟩
  by_cases h : x = some 0
  · simp [h]
  · rw [if_neg h]
    exact h

/-- C6 (counterexample): at the boundary `t = 0.99` the code passes
silently (`0.99 > 0.99` is false), although `0.99` lies outside the
claimed acceptance interval `[0, 0.99)`. -/
theorem checkTrimming_boundary_counterexample :
    checkTrimming (99/100) = .ok () ∧ ¬((99 : ℚ)/100 < 99/100) :=
  ⟨by norm_num [checkTrimming], by norm_num⟩

/-- C6 (amended): `_check_trimming` raises exactly when the trimming
fraction lies outside the closed interval `[0, 0.99]`; in particular it
raises for 1.0 and −0.1 and passes for 0, 0.5 and 0.98. -/
theorem checkTrimming_iff (t : ℚ) :
    (checkTrimming t = .error .valueError ↔ (t < 0 ∨ 99/100 < t))
    ∧ (checkTrimming t = .ok () ↔ (0 ≤ t ∧ t ≤ 99/100))
    ∧ checkTrimming 1 = .error .valueError
    ∧ checkTrimming (-1/10) = .error .valueError
    ∧ checkTrimming 0 = .ok ()
    ∧ checkTrimming (1/2) = .ok ()
    ∧ checkTrimming (49/50) = .ok () := by
  refine ⟨?_, ?_, by norm_num [checkTrimming], by norm_num [checkTrimming],
    by norm_num [checkTrimming], by norm_num [checkTrimming], by norm_num [checkTrimming]⟩ <;>
    unfold checkTrimming <;>
    by_cases h : (99 : ℚ)/100 < t ∨ t < 0
  · rw [if_pos h]
    exact iff_of_true rfl (h.elim Or.inr Or.inl)
  · rw [if_neg h]
    push_neg at h
    refine iff_of_false (by simp) (fun hc => ?_)
    exact hc.elim (fun h1 => absurd h1 (not_lt.mpr h.2)) (fun h1 => absurd h1 (not_lt.mpr h.1))
  · rw [if_pos h]
    refine iff_of_false (by simp) (fun hc => ?_)
    exact h.elim (fun h1 => absurd hc.2 (not_le.mpr h1)) (fun h1 => absurd hc.1 (not_le.mpr h1))
  · rw [if_neg h]
    push_neg at h
    exact iff_of_true rfl ⟨h.2, h.1⟩

/-- `_handle_zeros_in_scale` is the identity on a vector without zero entries. -/
theorem handleZeros_of_no_zero (s : Vec) (h : ∀ e ∈ s, e ≠ some 0) :
    handleZerosInScale s = s := by
  induction s with
  | nil => rfl
  | cons x xs ih =>
    have hx : x ≠ some 0 := h x (List.mem_cons_self x xs)
    have hxs := ih (fun e he => h e (List.mem_cons_of_mem x he))
    simp only [handleZerosInScale, List.map_cons] at hxs ⊢
    rw [if_neg hx, hxs]

/-- One standardized entry round-trips: `((a − m)/c)*c + m = a` for finite
`m`, finite nonzero `c`, and any entry `a` (NaN round-trips to NaN). -/
theorem entry_roundtrip (a : F) (bq cq : ℚ) (hc : cq ≠ 0) :
    addF (mulF (divF (subF a (some bq)) (some cq)) (some cq)) (some bq) = a := by
  cases a with
  | none => rfl
  | some aq =>
    rw [show subF (some aq) (some bq) = some (aq - bq) from rfl]
    rw [show divF (some (aq - bq)) (some cq) = some ((aq - bq) / cq) by simp [divF, hc]]
    rw [show mulF (some ((aq - bq) / cq)) (some cq) = some ((aq - bq) / cq * cq) from rfl]
    rw [show addF (some ((aq - bq) / cq * cq)) (some bq)
        = some ((aq - bq) / cq * cq + bq) from rfl]
    rw [div_mul_cancel₀ _ hc]
    congr 1
    ring

/-- A whole row round-trips through standardize/unstandardize. -/
theorem row_roundtrip : ∀ (r m s : Vec), r.length = m.length → m.length = s.length →
    (∀ e ∈ m, e ≠ none) → (∀ e ∈ s, e ≠ none ∧ e ≠ some 0) →
    List.zipWith addF (List.zipWith mulF
      (List.zipWith divF (List.zipWith subF r m) s) s) m = r := by
  intro r
  induction r with
  | nil => intro m s _ _ _ _; simp
  | cons a r ih =>
    intro m s h1 h2 hm hs
    cases m with
    | nil => simp at h1
    | cons b m =>
      cases s with
      | nil => simp at h2
      | cons c s =>
        obtain ⟨bq, rfl⟩ : ∃ bq, b = some bq :=
          Option.ne_none_iff_exists'.mp (hm b (List.mem_cons_self b m))
        obtain ⟨cq, rfl⟩ : ∃ cq, c = some cq :=
          Option.ne_none_iff_exists'.mp (hs c (List.mem_cons_self c s)).1
        have hcq : cq ≠ 0 := fun h0 =>
          (hs (some cq) (List.mem_cons_self (some cq) s)).2 (by rw [h0])
        simp only [List.zipWith_cons_cons]
        rw [entry_roundtrip a bq cq hcq]
        exact congrArg (a :: ·)
          (ih m s (by simpa using h1) (by simpa using h2)
            (fun e he => hm e (List.mem_cons_of_mem (some bq) he))
            (fun e he => hs e (List.mem_cons_of_mem (some cq) he)))

/-- Unfolding of `scaleDataRaw` on 2-D input. -/
theorem scaleDataRaw_mat (M : Mat) (m sg : Vec) :
    scaleDataRaw (.mat M) m sg =
      if ncols M = 1 then
        .mat (M.map (fun r => r.map (fun a => divF (subF a (m.getD 0 none)) (sg.getD 0 none))))
      else .mat (M.map (fun r => List.zipWith divF (List.zipWith subF r m) sg)) := rfl

/-- Unfolding of `unscale` on 2-D input. -/
theorem unscale_mat (M : Mat) (s m : Vec) :
    unscale (.mat M) s m
      = .mat (M.map (fun r => List.zipWith addF (List.zipWith mulF r s) m)) := rfl

/-- C7: `scale_data` computes `(X − m) / s` with the location and scale
vectors broadcast over the rows (for any matrix whose scale vector has
finite nonzero entries, so the zero guard is inert), and the inverse
transform `Xs * s + m` recovers `X` exactly — NaN entries of `X`
round-trip to NaN. -/
theorem scale_data_formula_and_roundtrip (M : Mat) (m s : Vec) (p : ℕ)
    (hrect : ∀ r ∈ M, r.length = p) (hm : m.length = p) (hs : s.length = p)
    (hmf : ∀ e ∈ m, e ≠ none) (hsf : ∀ e ∈ s, e ≠ none ∧ e ≠ some 0) :
    scale_data (.mat M) m s
        = .mat (M.map (fun r => List.zipWith divF (List.zipWith subF r m) s))
    ∧ unscale (scale_data (.mat M) m s) s m = .mat M := by
  have hz : handleZerosInScale s = s := handleZeros_of_no_zero s (fun e he => (hsf e he).2)
  have hformula : scale_data (.mat M) m s
      = .mat (M.map (fun r => List.zipWith divF (List.zipWith subF r m) s)) := by
    rw [show scale_data (.mat M) m s = scaleDataRaw (.mat M) m (handleZerosInScale s) from rfl,
      hz, scaleDataRaw_mat]
    by_cases hc : ncols M = 1
    · rw [if_pos hc]
      congr 1
      refine List.map_congr_left (fun r hr => ?_)
      have hp1 : p = 1 := by
        cases M with
        | nil => exact absurd hr (List.not_mem_nil r)
        | cons r0 M2 =>
          have h0 := hrect r0 (List.mem_cons_self r0 M2)
          have hn : ncols (r0 :: M2) = r0.length := rfl
          rw [hn, h0] at hc
          exact hc
      rcases List.length_eq_one.mp (hp1 ▸ hrect r hr) with ⟨a, rfl⟩
      rcases List.length_eq_one.mp (hp1 ▸ hm) with ⟨b, rfl⟩
      rcases List.length_eq_one.mp (hp1 ▸ hs) with ⟨c, rfl⟩
      simp [List.getD]
    · rw [if_neg hc]
  refine ⟨hformula, ?_⟩
  rw [hformula, unscale_mat]
  congr 1
  rw [List.map_map]
  conv_rhs => rw [← List.map_id M]
  refine List.map_congr_left (fun r hr => ?_)
  exact row_roundtrip r m s (by rw [hrect r hr, hm]) (by rw [hm, hs]) hmf hsf

theorem scale_data_formula_and_roundtrip_witness :
    (∀ e ∈ ([some 2, some 4] : Vec), e ≠ none ∧ e ≠ some 0)
    ∧ scale_data (.mat [[some 3, some 5], [some 7, some 9]]) [some 1, some 2] [some 2, some 4]
        = .mat (([[some 3, some 5], [some 7, some 9]] : Mat).map
            (fun r => List.zipWith divF (List.zipWith subF r [some 1, some 2]) [some 2, some 4]))
    ∧ unscale
        (scale_data (.mat [[some 3, some 5], [some 7, some 9]]) [some 1, some 2] [some 2, some 4])
        [some 2, some 4] [some 1, some 2]
        = .mat [[some 3, some 5], [some 7, some 9]] := by
  have h := scale_data_formula_and_roundtrip [[some 3, some 5], [some 7, some 9]]
    [some 1, some 2] [some 2, some 4] 2 (by decide) (by decide) (by decide)
    (by decide) (by decide)
  exact ⟨by decide, h.1, h.2⟩

/-- C8: supplying the optional starting point `x0` to `l1median` on a
p ≥ 2 matrix raises `UnboundLocalError`, because the local `x0` is only
assigned when the keyword is absent; with `x0` omitted, the optimization
does start from the column-wise median (here the solver returns its
starting point, and the result is exactly `median(X)`). -/
theorem l1median_x0_keyword_raises :
    l1median (fun _ x0 => x0) (some [some 0, some 0])
        (.mat [[some 0, some 0], [some 1, some 1], [some 2, some 2]])
      = .error .unboundLocal
    ∧ l1median (fun _ x0 => x0) none
        (.mat [[some 0, some 0], [some 1, some 1], [some 2, some 2]])
      = .ok (median (.mat [[some 0, some 0], [some 1, some 1], [some 2, some 2]])) :=
  ⟨rfl, rfl⟩

/-- Translating both operands by the same finite amount cancels in `subF`. -/
theorem subF_addQF (a b : F) (q : ℚ) : subF (addQF a q) (addQF b q) = subF a b := by
  cases a <;> cases b <;> simp [subF, addQF]

/-- Row-wise differences are invariant under a common translation. -/
theorem zipWith_subF_vecShift : ∀ (r m : Vec) (v : List ℚ), r.length ≤ v.length →
    List.zipWith subF (vecShift r v) (vecShift m v) = List.zipWith subF r m := by
  intro r
  induction r with
  | nil => intro m v _; simp [vecShift]
  | cons a r ih =>
    intro m v h
    cases v with
    | nil => simp at h
    | cons q v =>
      cases m with
      | nil => simp [vecShift]
      | cons b m =>
        simp only [vecShift, List.zipWith_cons_cons]
        rw [subF_addQF a b q]
        exact congrArg (subF a b :: ·) (ih m v (by simpa using h))

/-- Translation by a finite amount preserves NaN-ness of an entry. -/
theorem isNone_addQF (a : F) (q : ℚ) : (addQF a q).isNone = a.isNone := by
  cases a <;> rfl

/-- Translation preserves the NaN flag of a vector. -/
theorem hasNaNv_vecShift : ∀ (r : Vec) (v : List ℚ), r.length ≤ v.length →
    hasNaNv (vecShift r v) = hasNaNv r := by
  intro r
  induction r with
  | nil => intro v _; rfl
  | cons a r ih =>
    intro v h
    cases v with
    | nil => simp at h
    | cons q v =>
      have hr := ih v (by simpa using h)
      simp only [vecShift, hasNaNv] at hr ⊢
      simp only [List.zipWith_cons_cons, List.any_cons, isNone_addQF, hr]

/-- Translation preserves the NaN flag of a matrix. -/
theorem hasNaN_matShift : ∀ (X : Mat) (v : List ℚ), (∀ r ∈ X, r.length ≤ v.length) →
    hasNaN (matShift X v) = hasNaN X := by
  intro X
  induction X with
  | nil => intro v _; rfl
  | cons r X ih =>
    intro v h
    have hX := ih v (fun r2 hr2 => h r2 (List.mem_cons_of_mem r hr2))
    simp only [matShift, hasNaN] at hX ⊢
    simp only [List.map_cons, List.any_cons,
      hasNaNv_vecShift r v (h r (List.mem_cons_self r X)), hX]

/-- Squared deviations of a row are invariant under a common translation. -/
theorem sqRow_shift (m r : Vec) (v : List ℚ) (h : r.length ≤ v.length) :
    sqRow (vecShift m v) (vecShift r v) = sqRow m r := by
  unfold sqRow
  rw [zipWith_subF_vecShift r m v h]

/-- The per-row squared distances are invariant under a common translation. -/
theorem distsOf_shift (X : Mat) (m : Vec) (v : List ℚ)
    (h : ∀ r ∈ X, r.length ≤ v.length) :
    distsOf (matShift X v) (vecShift m v) = distsOf X m := by
  unfold distsOf matShift
  rw [show hasNaN (List.map (fun r => vecShift r v) X) = hasNaN X from
    hasNaN_matShift X v h]
  by_cases hn : hasNaN X = true <;>
    simp only [hn, if_true, if_false, Bool.false_eq_true] <;>
    rw [List.map_map] <;>
    refine List.map_congr_left (fun r hr => ?_) <;>
    simp only [Function.comp_apply, sqRow_shift m r v (h r hr)]

/-- Unfolding of `selectRows` on a cons cell. -/
theorem selectRows_cons (r : Vec) (X : Mat) (e : F) (d : List F) (c : F) :
    selectRows (r :: X) (e :: d) c
      = if leF e c then r :: selectRows X d c else selectRows X d c := by
  by_cases h : leF e c = true <;>
    simp [selectRows, List.zip_cons_cons, List.filterMap_cons, h]

/-- Row selection commutes with any row-wise transformation. -/
theorem selectRows_map (f : Vec → Vec) : ∀ (X : Mat) (d : List F) (c : F),
    selectRows (X.map f) d c = (selectRows X d c).map f := by
  intro X
  induction X with
  | nil => intro d c; rfl
  | cons r X ih =>
    intro d c
    cases d with
    | nil => rfl
    | cons e d =>
      rw [List.map_cons, selectRows_cons, selectRows_cons]
      by_cases h : leF e c = true
      · rw [if_pos h, if_pos h, List.map_cons, ih]
      · rw [if_neg h, if_neg h, ih]

/-- Selected rows are rows of the original matrix. -/
theorem selectRows_mem : ∀ (X : Mat) (d : List F) (c : F) (r : Vec),
    r ∈ selectRows X d c → r ∈ X := by
  intro X
  induction X with
  | nil => intro d c r hr; simp [selectRows] at hr
  | cons r0 X ih =>
    intro d c r hr
    cases d with
    | nil =>
      rw [show selectRows (r0 :: X) [] c = [] from rfl] at hr
      exact absurd hr (List.not_mem_nil r)
    | cons e d =>
      rw [selectRows_cons] at hr
      by_cases h : leF e c = true
      · rw [if_pos h] at hr
        rcases List.mem_cons.mp hr with h1 | h1
        · exact h1 ▸ List.mem_cons_self r0 X
        · exact List.mem_cons_of_mem r0 (ih d c r h1)
      · rw [if_neg h] at hr
        exact List.mem_cons_of_mem r0 (ih d c r hr)

/-- Entry-level effect of a translation, through `get?`/`getD`. -/
theorem get?_getD_vecShift : ∀ (r : Vec) (v : List ℚ) (j : ℕ), j < r.length →
    r.length ≤ v.length →
    ((vecShift r v).get? j).getD none = addQF ((r.get? j).getD none) (v.getD j 0) := by
  intro r
  induction r with
  | nil => intro v j hj _; simp at hj
  | cons a r ih =>
    intro v j hj hlen
    cases v with
    | nil => simp at hlen
    | cons q v =>
      cases j with
      | zero => rfl
      | succ j =>
        simp only [vecShift, List.zipWith_cons_cons, List.get?_cons_succ, List.getD_cons_succ]
        exact ih v j (by simpa using hj) (by simpa using hlen)

/-- Column extraction after translating every row shifts the column by the
corresponding coordinate of `v`. -/
theorem colOf_matShift (M : Mat) (v : List ℚ) (j : ℕ)
    (hrect : ∀ r ∈ M, r.length = v.length) (hj : j < v.length) :
    colOf (matShift M v) j = (colOf M j).map (fun x => addQF x (v.getD j 0)) := by
  unfold colOf matShift
  rw [List.map_map, List.map_map]
  refine List.map_congr_left (fun r hr => ?_)
  simp only [Function.comp_apply]
  exact get?_getD_vecShift r v j (by rw [hrect r hr]; exact hj) (le_of_eq (hrect r hr))

/-- The finite entries of a translated column are the translated finite entries. -/
theorem filterMap_id_map_addQF (c : List F) (q : ℚ) :
    (c.map (fun x => addQF x q)).filterMap id = (c.filterMap id).map (fun x => x + q) := by
  induction c with
  | nil => rfl
  | cons a c ih =>
    cases a with
    | none =>
      rw [List.map_cons]
      rw [show List.filterMap id (addQF none q :: c.map (fun x => addQF x q))
          = List.filterMap id (c.map (fun x => addQF x q)) from rfl]
      rw [show List.filterMap id ((none : F) :: c) = List.filterMap id c from rfl]
      exact ih
    | some x =>
      rw [List.map_cons]
      rw [show List.filterMap id (addQF (some x) q :: c.map (fun y => addQF y q))
          = (x + q) :: List.filterMap id (c.map (fun y => addQF y q)) from rfl]
      rw [show List.filterMap id (some x :: c) = x :: List.filterMap id c from rfl]
      rw [List.map_cons, ih]

/-- Sum of a translated list of rationals. -/
theorem sum_map_add_q (l : List ℚ) (q : ℚ) :
    (l.map (fun x => x + q)).sum = l.sum + l.length * q := by
  induction l with
  | nil => simp
  | cons a l ih =>
    simp only [List.map_cons, List.sum_cons, ih, List.length_cons]
    push_cast
    ring

/-- `np.nanmean` of one column is translation-equivariant. -/
theorem nanMeanCol_shift (c : List F) (q : ℚ) :
    nanMeanCol (c.map (fun x => addQF x q)) = addQF (nanMeanCol c) q := by
  unfold nanMeanCol
  rw [filterMap_id_map_addQF]
  cases h : c.filterMap id with
  | nil => rfl
  | cons x xs =>
    simp only [List.map_cons, List.isEmpty_cons, Bool.false_eq_true, if_false,
      List.sum_cons, List.length_cons, List.length_map, sum_map_add_q, addQF,
      Option.map_some']
    congr 1
    have hlen : ((xs.length : ℚ) + 1) ≠ 0 := by positivity
    push_cast
    field_simp
    ring

/-- `np.sum` of a translated column. -/
theorem sumF_map_addQF : ∀ (c : List F) (q : ℚ),
    sumF (c.map (fun x => addQF x q))
      = Option.map (fun S => S + c.length * q) (sumF c) := by
  intro c
  induction c with
  | nil => intro q; simp [sumF]
  | cons a c ih =>
    intro q
    rw [show sumF ((a :: c).map (fun x => addQF x q))
        = addF (addQF a q) (sumF (c.map (fun x => addQF x q))) from rfl]
    rw [show sumF (a :: c) = addF a (sumF c) from rfl]
    rw [ih q]
    cases a with
    | none => cases sumF c <;> rfl
    | some aq =>
      cases hsc : sumF c with
      | none => rfl
      | some S =>
        simp only [addQF, Option.map_some', addF, List.length_cons]
        congr 1
        push_cast
        ring

/-- `np.mean` of one column is translation-equivariant. -/
theorem plainMeanCol_shift (c : List F) (q : ℚ) :
    plainMeanCol (c.map (fun x => addQF x q)) = addQF (plainMeanCol c) q := by
  cases c with
  | nil => rfl
  | cons a c =>
    unfold plainMeanCol
    rw [sumF_map_addQF (a :: c) q, List.length_map]
    simp only [List.map_cons, List.isEmpty_cons, Bool.false_eq_true, if_false]
    cases hsc : sumF (a :: c) with
    | none => rfl
    | some S =>
      simp only [Option.map_some', addQF, List.length_cons]
      congr 1
      have hlen : ((c.length : ℚ) + 1) ≠ 0 := by positivity
      push_cast
      field_simp
      ring

/-- Tabulating over `range` and then translating coordinate-wise is the
same as translating inside the tabulation. -/
theorem vecShift_range_map (v : List ℚ) (f : ℕ → F) :
    vecShift ((List.range v.length).map f) v
      = (List.range v.length).map (fun j => addQF (f j) (v.getD j 0)) := by
  apply List.ext_get?
  intro n
  by_cases hn : n < v.length
  · rw [show vecShift ((List.range v.length).map f) v
        = List.zipWith addQF ((List.range v.length).map f) v from rfl]
    rw [List.get?_zipWith', List.get?_map, List.get?_map, List.get?_range hn]
    have hv : v.get? n = some (v.getD n 0) := by
      cases hvv : v.get? n with
      | none => exact absurd (List.get?_eq_none.mp hvv) (by omega)
      | some x =>
        rw [List.getD_eq_get?, hvv]
        rfl
    rw [hv]
    rfl
  · have h1 : (vecShift ((List.range v.length).map f) v).get? n = none := by
      refine List.get?_eq_none.mpr ?_
      rw [show vecShift ((List.range v.length).map f) v
          = List.zipWith addQF ((List.range v.length).map f) v from rfl]
      rw [List.length_zipWith, List.length_map, List.length_range]
      omega
    have h2 : ((List.range v.length).map (fun j => addQF (f j) (v.getD j 0))).get? n = none := by
      refine List.get?_eq_none.mpr ?_
      rw [List.length_map, List.length_range]
      omega
    rw [h1, h2]

/-- The column-mean step is translation-equivariant on rectangular data. -/
theorem meanCols_shift (M : Mat) (v : List ℚ)
    (hrect : ∀ r ∈ M, r.length = v.length) :
    meanCols v.length (matShift M v) = vecShift (meanCols v.length M) v := by
  unfold meanCols
  rw [show hasNaN (matShift M v) = hasNaN M from
    hasNaN_matShift M v (fun r hr => le_of_eq (hrect r hr))]
  by_cases hn : hasNaN M = true <;>
    simp only [hn, if_true, if_false, Bool.false_eq_true] <;>
    rw [vecShift_range_map] <;>
    refine List.map_congr_left (fun j hj => ?_) <;>
    rw [colOf_matShift M v j hrect (List.mem_range.mp hj)]
  · rw [nanMeanCol_shift]
  · rw [plainMeanCol_shift]

/-- The convergence measurement is invariant under a common translation. -/
theorem maxAbsDiff_shift (m1 m2 : Vec) (v : List ℚ) (h : m1.length ≤ v.length) :
    maxAbsDiff (vecShift m1 v) (vecShift m2 v) = maxAbsDiff m1 m2 := by
  unfold maxAbsDiff
  rw [zipWith_subF_vecShift m1 m2 v h]

/-- One refinement step of `kstepLTS` is translation-equivariant. -/
theorem ltsStep_shift (X : Mat) (v : List ℚ) (m1 : Vec)
    (hrect : ∀ r ∈ X, r.length = v.length) :
    ltsStep (matShift X v) v.length X.length (vecShift m1 v)
      = vecShift (ltsStep X v.length X.length m1) v := by
  show meanCols v.length (selectRows (matShift X v) (distsOf (matShift X v) (vecShift m1 v))
      (cutdistOf X.length (distsOf (matShift X v) (vecShift m1 v))))
    = vecShift (meanCols v.length (selectRows X (distsOf X m1)
      (cutdistOf X.length (distsOf X m1)))) v
  rw [distsOf_shift X m1 v (fun r hr => le_of_eq (hrect r hr))]
  rw [show matShift X v = X.map (fun r => vecShift r v) from rfl, selectRows_map]
  exact meanCols_shift _ v
    (fun r hr => hrect r (selectRows_mem X (distsOf X m1) _ r hr))

/-- The column-mean step always returns a length-`p` vector. -/
theorem meanCols_length (p : ℕ) (M : Mat) : (meanCols p M).length = p := by
  unfold meanCols
  split <;> rw [List.length_map, List.length_range]

/-- The output of one refinement step has length `p`. -/
theorem ltsStep_length (X : Mat) (p n : ℕ) (m1 : Vec) :
    (ltsStep X p n m1).length = p :=
  meanCols_length p _

/-- The `kstepLTS` loop is translation-equivariant, given rectangular data
and a current estimate no longer than `v`. -/
theorem ltsGo_shift (X : Mat) (v : List ℚ) (tol : ℚ)
    (hrect : ∀ r ∈ X, r.length = v.length) :
    ∀ (k : ℕ) (m1 : Vec), m1.length ≤ v.length →
      ltsGo (matShift X v) v.length X.length tol k (vecShift m1 v)
        = vecShift (ltsGo X v.length X.length tol k m1) v := by
  intro k
  induction k with
  | zero => intro m1 _; rfl
  | succ k ih =>
    intro m1 h
    rw [ltsGo_succ, ltsGo_succ]
    rw [ltsStep_shift X v m1 hrect]
    rw [maxAbsDiff_shift m1 (ltsStep X v.length X.length m1) v h]
    by_cases hg : gtF (maxAbsDiff m1 (ltsStep X v.length X.length m1)) (some tol) = true
    · rw [if_pos hg, if_pos hg]
      exact ih (ltsStep X v.length X.length m1)
        (le_of_eq (ltsStep_length X v.length X.length m1))
    · rw [if_neg hg, if_neg hg]

/-- C10: `kstepLTS` is translation-equivariant: on a nonempty rectangular
matrix, for every constant (finite) translation vector `v` and every
`maxit ≥ 1`, provided the seeding `l1median` call is itself
translation-equivariant on this input (for `p = 1` it always is; for
`p ≥ 2` the seed comes from the external optimizer), translating every
row by `v` translates the returned estimate by `v` — exactly, hence
within any tolerance. -/
theorem kstepLTS_translation_equivariant (solver : Solver) (X : Mat) (v : List ℚ)
    (maxit : ℕ) (tol : ℚ) (hne : X ≠ []) (hrect : ∀ r ∈ X, r.length = v.length)
    (_hmax : 1 ≤ maxit)
    (hseed : kstepSeed solver (matShift X v) = vecShift (kstepSeed solver X) v)
    (hlen : (kstepSeed solver X).length ≤ v.length) :
    kstepLTS solver (matShift X v) maxit tol
      = vecShift (kstepLTS solver X maxit tol) v := by
  unfold kstepLTS
  rw [hseed]
  have hn : (matShift X v).length = X.length := List.length_map X _
  have hp : ncols (matShift X v) = v.length ∧ ncols X = v.length := by
    cases X with
    | nil => exact absurd rfl hne
    | cons r X2 =>
      have hr := hrect r (List.mem_cons_self r X2)
      constructor
      · show (vecShift r v).length = v.length
        simp [vecShift, hr]
      · exact hr
  rw [hn, hp.1, hp.2]
  exact ltsGo_shift X v tol hrect maxit (kstepSeed solver X) hlen

set_option maxHeartbeats 400000 in
theorem kstepLTS_translation_equivariant_witness :
    ([[some 0], [some 2], [some 10]] : Mat) ≠ []
    ∧ kstepLTS (fun _ _ => []) (matShift [[some 0], [some 2], [some 10]] [1]) 1 (1/2)
        = vecShift (kstepLTS (fun _ _ => []) [[some 0], [some 2], [some 10]] 1 (1/2)) [1] := by
  refine ⟨by decide,
    kstepLTS_translation_equivariant (fun _ _ => []) [[some 0], [some 2], [some 10]] [1]
      1 (1/2) (by decide) (by decide) (by decide) ?_ (by decide)⟩
  norm_num [kstepSeed, matShift, vecShift, addQF, l1median, median, pcolsArr, ncols,
    hasNaN, hasNaNv, plainMedianCol, medianOfQ, sortQ, insertQ, colOf,
    show List.range 1 = [0] from rfl, List.filterMap_cons, List.filterMap_nil,
    List.map, Option.isNone, List.any, List.zipWith]

/-- C9: a 1-D input makes `scaleTau2` fail at the shape unpacking
`n, p = x.shape` with a `ValueError`, for every choice of tuning
constants and consistency mode — no scale estimate is returned. -/
theorem scaleTau2_rejects_1d_input (sq cdf pdf ppf : ℚ → ℚ) (c1 c2 : ℚ) (cons : Consistency) :
    scaleTau2 sq cdf pdf ppf (.vec [some 1, some 2, some 3]) c1 c2 cons
      = .error .valueError := rfl

end Twoblock
